import Mathlib

/-!
Verification of the bitemporal price-fact store and the risk-analytics
pipeline of the LuSE quantitative investment platform
(`backend/app/services/bitemporal_service.py`, `price_service.py`,
`market_data.py`, `analytics.py`, `timescale_risk.py`, `tasks.py`).

The embedding is shallow: SQLAlchemy-backed tables become lists of
records, datetimes become natural numbers, floats become rationals,
and each service method becomes a pure function on those lists,
translated clause by clause from the Python source.
-/

namespace LuseQuant

/-! ## The price_history table (`app/models/price_history.py`,
`app/models/base.py`)

One row per (asset, trade date, transaction interval).  `valid_from` is
declared `nullable=False` with no default in the model; it is embedded as
an `Option` holding whatever the writing service assigned (`none` when the
service left it unset), and the commit operation below enforces the NOT
NULL constraint the way the database does. -/

structure PriceFact where
  asset_id : Nat
  trade_date : Nat
  close_price : ℚ
  open_price : Option ℚ
  high_price : Option ℚ
  low_price : Option ℚ
  volume : Option ℚ
  trades_occurred : Nat
  valid_from : Option Nat
  valid_to : Option Nat
  transaction_from : Nat
  transaction_to : Option Nat
  is_current : Bool
deriving DecidableEq, Repr

/-- The price_history table as seen by one session: the list of rows. -/
abbrev Store := List PriceFact

/-- `BitemporalMixin.close_transaction` (`app/models/base.py`):
sets `transaction_to` and clears the current flag. -/
def closeTransaction (f : PriceFact) (close_time : Nat) : PriceFact :=
  { f with transaction_to := some close_time, is_current := false }

/-- Filter of `BitemporalService.get_current_price`:
`asset_id == a, trade_date == d, is_current == True`. -/
def isCurrentFor (a d : Nat) (f : PriceFact) : Bool :=
  f.asset_id == a && f.trade_date == d && f.is_current

/-- `BitemporalService.get_current_price`: first row passing the filter. -/
def getCurrentPrice (s : Store) (a d : Nat) : Option PriceFact :=
  s.find? (isCurrentFor a d)

/-- Transaction-interval containment test of
`BitemporalService.get_price_as_of_transaction_time`:
`transaction_from <= as_of` and (`transaction_to IS NULL` or
`transaction_to > as_of`). -/
def txnContains (as_of : Nat) (f : PriceFact) : Bool :=
  decide (f.transaction_from ≤ as_of) &&
    (match f.transaction_to with
     | none => true
     | some u => decide (as_of < u))

/-- `BitemporalService.get_price_as_of_transaction_time`. -/
def getPriceAsOfTransactionTime (s : Store) (a d as_of : Nat) : Option PriceFact :=
  s.find? (fun f => f.asset_id == a && f.trade_date == d && txnContains as_of f)

/-- Python truthiness of `x or y` on optional floats, as used in
`correct_price`: `x` is kept only when it is neither `None` nor zero. -/
def pyOr (x y : Option ℚ) : Option ℚ :=
  match x with
  | none => y
  | some v => if v = 0 then y else some v

/-- Failure of `correct_price`: the `ValueError` raised when no current
record exists (mapped to HTTP 404 by the endpoint). -/
inductive CorrectionError where
  | notFound
deriving DecidableEq, Repr

/-- The corrected record built by `correct_price`: same valid-time interval
as the predecessor `cur`, caller-supplied close, `x or cur.x` for the other
price fields, and a fresh open transaction interval. -/
def correctedFact (cur : PriceFact) (a d now : Nat) (corrected_close : ℚ)
    (corrected_open corrected_high corrected_low corrected_volume : Option ℚ) :
    PriceFact :=
  { asset_id := a
    trade_date := d
    close_price := corrected_close
    open_price := pyOr corrected_open cur.open_price
    high_price := pyOr corrected_high cur.high_price
    low_price := pyOr corrected_low cur.low_price
    volume := pyOr corrected_volume cur.volume
    trades_occurred := cur.trades_occurred
    valid_from := cur.valid_from
    valid_to := cur.valid_to
    transaction_from := now
    transaction_to := none
    is_current := true }

def correctPrice (s : Store) (a d : Nat) (now : Nat) (corrected_close : ℚ)
    (corrected_open corrected_high corrected_low corrected_volume : Option ℚ) :
    Except CorrectionError (Store × PriceFact) :=
  -- find the current record; fail if absent; close it in place; append the
  -- corrected record; the close and the insert are committed together, so
  -- the returned store is the state after the single atomic commit
  match getCurrentPrice s a d with
  | none => .error .notFound
  | some cur =>
    .ok (s.map (fun g => if g = cur then closeTransaction cur now else g)
           ++ [correctedFact cur a d now corrected_close corrected_open
                 corrected_high corrected_low corrected_volume],
         correctedFact cur a d now corrected_close corrected_open
           corrected_high corrected_low corrected_volume)

/-- The store seen by the session after a `correct_price` call: unchanged
when the call raised (the raise happens before any mutation). -/
def applyCorrectPrice (s : Store) (a d now : Nat) (c : ℚ)
    (o hi lo v : Option ℚ) : Store :=
  match correctPrice s a d now c o hi lo v with
  | .ok (s2, _) => s2
  | .error _ => s

/-- The row object `SimplePriceService.insert_price` constructs
(`price_service.py:31-36`): only asset, trade date, close and volume are
assigned; the column defaults applied at INSERT are `is_current` true,
`transaction_from` now, `transaction_to` null — and `valid_from` is left
unset, with no default to fall back on. -/
def insertedFact (a d : Nat) (close_price volume : ℚ) (now : Nat) : PriceFact :=
  { asset_id := a
    trade_date := d
    close_price := close_price
    open_price := none
    high_price := none
    low_price := none
    volume := some volume
    trades_occurred := 0
    valid_from := none
    valid_to := none
    transaction_from := now
    transaction_to := none
    is_current := true }

/-- Database error surfaced by `db.commit()`. -/
inductive DbError where
  | integrityError
deriving DecidableEq, Repr

/-- Committing one new row to price_history, enforcing the schema the
table is created with (`Base.metadata.create_all` from the model):
`valid_from` is `nullable=False` (`base.py:19`), so a row whose
`valid_from` was never assigned is rejected with IntegrityError and
nothing is persisted. -/
def commitRow (s : Store) (f : PriceFact) : Except DbError Store :=
  match f.valid_from with
  | some _ => .ok (s ++ [f])
  | none => .error .integrityError

/-- `SimplePriceService.insert_price` (`app/services/price_service.py`):
builds the row without a current-fact check and commits it.  Because the
row never carries `valid_from`, the commit always raises IntegrityError:
this path persists nothing. -/
def insertPrice (s : Store) (a d : Nat) (close_price volume : ℚ) (now : Nat) :
    Except DbError Store :=
  commitRow s (insertedFact a d close_price volume now)

/-- The table contents after an `insert_price` call: unchanged when the
commit raised. -/
def applyInsertPrice (s : Store) (a d : Nat) (c v : ℚ) (now : Nat) : Store :=
  match insertPrice s a d c v now with
  | .ok s2 => s2
  | .error _ => s

/-! ## The market_prices table (`app/core/models.py`) and
`MarketDataService.ingest_price` (`app/services/market_data.py`) -/

structure MarketPrice where
  security_ticker : Nat
  price : ℚ
  volume : ℚ
  valid_from : Nat
  transaction_from : Nat
  transaction_to : Option Nat
deriving DecidableEq, Repr

abbrev MpStore := List MarketPrice

/-- Filter used by `ingest_price` to locate a record to close:
same ticker, same valid date, `transaction_to IS NULL`. -/
def mpOpenFor (ticker valid_date : Nat) (m : MarketPrice) : Bool :=
  m.security_ticker == ticker && m.valid_from == valid_date && m.transaction_to.isNone

def ingestedRecord (ticker : Nat) (price volume : ℚ) (valid_date now : Nat) :
    MarketPrice :=
  { security_ticker := ticker
    price := price
    volume := volume
    valid_from := valid_date
    transaction_from := now
    transaction_to := none }

/-- `MarketDataService.ingest_price`: close the first still-open record
for (ticker, valid_date) if one exists, then insert a fresh open record. -/
def ingestPrice (s : MpStore) (ticker : Nat) (price volume : ℚ)
    (valid_date now : Nat) : MpStore :=
  match s.find? (mpOpenFor ticker valid_date) with
  | none => s ++ [ingestedRecord ticker price volume valid_date now]
  | some existing =>
    s.map (fun g => if g = existing then { existing with transaction_to := some now } else g)
      ++ [ingestedRecord ticker price volume valid_date now]

/-! ## The invariant of spec section 3 and the reachable states -/

/-- A fact counts as open (currently believed) when `transaction_to` is null. -/
def isOpenFor (a d : Nat) (f : PriceFact) : Bool :=
  f.asset_id == a && f.trade_date == d && f.transaction_to.isNone

/-- Number of open facts for one (asset, trade_date) pair. -/
def openCount (s : Store) (a d : Nat) : Nat :=
  s.countP (isOpenFor a d)

/-- Spec invariant 1 on the price_history table. -/
def phInvariant (s : Store) : Prop :=
  ∀ a d, openCount s a d ≤ 1

def mpOpenCount (s : MpStore) (ticker valid_date : Nat) : Nat :=
  s.countP (mpOpenFor ticker valid_date)

/-- Spec invariant 1 on the market_prices table. -/
def mpInvariant (s : MpStore) : Prop :=
  ∀ tk vd, mpOpenCount s tk vd ≤ 1

/-- Flag consistency: `is_current` is exactly `transaction_to IS NULL`
(spec section 3: `is_current` true iff `transaction_to is null`). -/
def flagsConsistent (s : Store) : Prop :=
  ∀ f ∈ s, f.is_current = true ↔ f.transaction_to = none

/-- Store states reachable from the empty tables through the write
operations of the services. -/
inductive Reachable : Store → MpStore → Prop where
  | init : Reachable [] []
  | insert (s : Store) (m : MpStore) (a d : Nat) (c v : ℚ) (t : Nat) :
      Reachable s m → Reachable (applyInsertPrice s a d c v t) m
  | ingest (s : Store) (m : MpStore) (tk : Nat) (p v : ℚ) (vd t : Nat) :
      Reachable s m → Reachable s (ingestPrice m tk p v vd t)
  | correct (s : Store) (m : MpStore) (a d t : Nat) (c : ℚ)
      (o hi lo vol : Option ℚ) :
      Reachable s m → Reachable (applyCorrectPrice s a d t c o hi lo vol) m

/-! ## Counting lemmas for in-place updates

The services mutate one located row and append one fresh row;
these lemmas track `countP` across that pattern. -/

lemma countP_map_update_le {α : Type} [DecidableEq α] (p : α → Bool) (cur new : α)
    (hnew : p new = false) :
    ∀ s : List α, (s.map (fun g => if g = cur then new else g)).countP p ≤ s.countP p := by
  intro s
  induction s with
  | nil => simp
  | cons x xs ih =>
    simp only [List.map_cons, List.countP_cons]
    by_cases hx : x = cur
    · rw [if_pos hx]
      have h0 : (if p new = true then 1 else 0) = 0 := by simp [hnew]
      rw [h0]
      exact le_trans (Nat.le_of_eq (Nat.add_zero _)) (le_trans ih (Nat.le_add_right _ _))
    · rw [if_neg hx]
      exact Nat.add_le_add_right ih _

lemma countP_map_update_succ_le {α : Type} [DecidableEq α] (p : α → Bool) (cur new : α)
    (hnew : p new = false) (hcur : p cur = true) :
    ∀ s : List α, cur ∈ s →
      (s.map (fun g => if g = cur then new else g)).countP p + 1 ≤ s.countP p := by
  intro s
  induction s with
  | nil => intro hmem; simp at hmem
  | cons x xs ih =>
    intro hmem
    simp only [List.map_cons, List.countP_cons]
    by_cases hx : x = cur
    · rw [if_pos hx]
      have h0 : (if p new = true then 1 else 0) = 0 := by simp [hnew]
      have h1 : (if p x = true then 1 else 0) = 1 := by rw [hx]; simp [hcur]
      rw [h0, h1]
      have := countP_map_update_le p cur new hnew xs
      omega
    · have hmem2 : cur ∈ xs := by
        rcases List.mem_cons.mp hmem with h | h
        · exact absurd h.symm hx
        · exact h
      rw [if_neg hx]
      have := ih hmem2
      omega

lemma countP_map_update_of_neg {α : Type} [DecidableEq α] (p : α → Bool) (cur new : α)
    (hnew : p new = false) (hcur : p cur = false) :
    ∀ s : List α, (s.map (fun g => if g = cur then new else g)).countP p = s.countP p := by
  intro s
  induction s with
  | nil => simp
  | cons x xs ih =>
    simp only [List.map_cons, List.countP_cons]
    by_cases hx : x = cur
    · rw [if_pos hx]
      have h0 : (if p new = true then 1 else 0) = 0 := by simp [hnew]
      have h1 : (if p x = true then 1 else 0) = 0 := by rw [hx]; simp [hcur]
      rw [h0, h1, ih]
    · rw [if_neg hx, ih]

lemma countP_singleton {α : Type} (p : α → Bool) (x : α) :
    List.countP p [x] = if p x = true then 1 else 0 := by
  simp [List.countP_cons]

/-! ## Preservation of the one-open-fact invariant by each write path -/

/-- A concrete one-row store used to instantiate the correction theorems. -/
def sampleFact : PriceFact :=
  { asset_id := 1, trade_date := 0, close_price := 10, open_price := some 9,
    high_price := some 11, low_price := some 8, volume := some 100,
    trades_occurred := 1, valid_from := some 0, valid_to := none,
    transaction_from := 0, transaction_to := none, is_current := true }

lemma insertPrice_raises (s : Store) (a d : Nat) (c v : ℚ) (now : Nat) :
    insertPrice s a d c v now = .error .integrityError := rfl

lemma applyInsertPrice_eq (s : Store) (a d : Nat) (c v : ℚ) (now : Nat) :
    applyInsertPrice s a d c v now = s := rfl

lemma mpOpenFor_ingestedRecord (tk2 vd2 tk : Nat) (p3 v3 : ℚ) (vd3 t3 : Nat) :
    mpOpenFor tk2 vd2 (ingestedRecord tk p3 v3 vd3 t3)
      = (decide (tk = tk2) && decide (vd3 = vd2)) := by
  by_cases ha : tk = tk2 <;> by_cases hd : vd3 = vd2 <;>
    simp [mpOpenFor, ingestedRecord, ha, hd]

lemma mpOpenFor_closed (tk2 vd2 t3 : Nat) (existing : MarketPrice) :
    mpOpenFor tk2 vd2 { existing with transaction_to := some t3 } = false := by
  simp [mpOpenFor]

lemma ingestPrice_preserves_mpInvariant (m : MpStore) (tk : Nat) (p3 v3 : ℚ)
    (vd3 t3 : Nat) (hm : mpInvariant m) :
    mpInvariant (ingestPrice m tk p3 v3 vd3 t3) := by
  intro tk2 vd2
  have hm2 := hm tk2 vd2
  unfold mpOpenCount at hm2 ⊢
  unfold ingestPrice
  cases hfind : m.find? (mpOpenFor tk vd3) with
  | none =>
    have hall := List.find?_eq_none.mp hfind
    rw [List.countP_append, countP_singleton, mpOpenFor_ingestedRecord]
    by_cases hkey : tk = tk2 ∧ vd3 = vd2
    · obtain ⟨rfl, rfl⟩ := hkey
      have hzero : List.countP (mpOpenFor tk vd3) m = 0 :=
        List.countP_eq_zero.mpr hall
      have htrue : (decide (tk = tk) && decide (vd3 = vd3)) = true := by simp
      rw [htrue, if_pos rfl]
      omega
    · have hfalse : (decide (tk = tk2) && decide (vd3 = vd2)) = false := by
        by_cases ha : tk = tk2
        · have hd : vd3 ≠ vd2 := fun hd => hkey ⟨ha, hd⟩
          simp [ha, hd]
        · simp [ha]
      rw [hfalse]
      simp only [Bool.false_eq_true, if_false]
      omega
  | some existing =>
    have hmem : existing ∈ m := List.mem_of_find?_eq_some hfind
    have hpred : mpOpenFor tk vd3 existing = true := List.find?_some hfind
    rw [List.countP_append, countP_singleton, mpOpenFor_ingestedRecord]
    by_cases hkey : tk = tk2 ∧ vd3 = vd2
    · obtain ⟨rfl, rfl⟩ := hkey
      have hle := countP_map_update_succ_le (mpOpenFor tk vd3) existing
        { existing with transaction_to := some t3 }
        (mpOpenFor_closed tk vd3 t3 existing) hpred m hmem
      have htrue : (decide (tk = tk) && decide (vd3 = vd3)) = true := by simp
      rw [htrue, if_pos rfl]
      omega
    · have hpred2 : mpOpenFor tk2 vd2 existing = false := by
        simp only [mpOpenFor, Bool.and_eq_true, beq_iff_eq,
          Option.isNone_iff_eq_none] at hpred
        obtain ⟨⟨htk, hvd⟩, hopen⟩ := hpred
        simp only [mpOpenFor, htk, hvd, hopen, Option.isNone_none, Bool.and_true]
        by_cases ha : tk = tk2
        · have hd : vd3 ≠ vd2 := fun hd => hkey ⟨ha, hd⟩
          simp [ha, hd]
        · simp [ha]
      have heq := countP_map_update_of_neg (mpOpenFor tk2 vd2) existing
        { existing with transaction_to := some t3 }
        (mpOpenFor_closed tk2 vd2 t3 existing) hpred2 m
      have hfalse : (decide (tk = tk2) && decide (vd3 = vd2)) = false := by
        by_cases ha : tk = tk2
        · have hd : vd3 ≠ vd2 := fun hd => hkey ⟨ha, hd⟩
          simp [ha, hd]
        · simp [ha]
      rw [hfalse, heq]
      simp only [Bool.false_eq_true, if_false]
      omega

lemma correctPrice_preserves (s : Store) (a d now : Nat) (c : ℚ) (o hi lo vol : Option ℚ)
    (hwf : flagsConsistent s) (hinv : phInvariant s) :
    phInvariant (applyCorrectPrice s a d now c o hi lo vol) ∧
    flagsConsistent (applyCorrectPrice s a d now c o hi lo vol) := by
  unfold applyCorrectPrice correctPrice
  cases hfind : getCurrentPrice s a d with
  | none => exact ⟨hinv, hwf⟩
  | some cur =>
    have hfind2 : s.find? (isCurrentFor a d) = some cur := hfind
    have hmem : cur ∈ s := List.mem_of_find?_eq_some hfind2
    have hpred : isCurrentFor a d cur = true := List.find?_some hfind2
    simp only [isCurrentFor, Bool.and_eq_true, beq_iff_eq] at hpred
    obtain ⟨⟨hassetEq, hdateEq⟩, hisCur⟩ := hpred
    have hopen : cur.transaction_to = none := (hwf cur hmem).mp hisCur
    have hclosedP : ∀ a2 d2, isOpenFor a2 d2 (closeTransaction cur now) = false := by
      intro a2 d2
      simp [isOpenFor, closeTransaction]
    constructor
    · intro a2 d2
      unfold openCount
      rw [List.countP_append, countP_singleton]
      have hnewP : isOpenFor a2 d2 (correctedFact cur a d now c o hi lo vol)
          = (decide (a = a2) && decide (d = d2)) := by
        by_cases h1 : a = a2 <;> by_cases h2 : d = d2 <;>
          simp [isOpenFor, correctedFact, h1, h2]
      rw [hnewP]
      by_cases hkey : a = a2 ∧ d = d2
      · obtain ⟨rfl, rfl⟩ := hkey
        have hcurP : isOpenFor a d cur = true := by
          simp [isOpenFor, hassetEq, hdateEq, hopen]
        have hle := countP_map_update_succ_le (isOpenFor a d) cur
          (closeTransaction cur now) (hclosedP a d) hcurP s hmem
        have hinv2 := hinv a d
        unfold openCount at hinv2
        have htrue : (decide (a = a) && decide (d = d)) = true := by simp
        rw [htrue, if_pos rfl]
        omega
      · have hcurP : isOpenFor a2 d2 cur = false := by
          simp only [isOpenFor, hassetEq, hdateEq, hopen, Option.isNone_none,
            Bool.and_true]
          by_cases h1 : a = a2
          · have h2 : d ≠ d2 := fun h2 => hkey ⟨h1, h2⟩
            simp [h1, h2]
          · simp [h1]
        have heq := countP_map_update_of_neg (isOpenFor a2 d2) cur
          (closeTransaction cur now) (hclosedP a2 d2) hcurP s
        have hinv2 := hinv a2 d2
        unfold openCount at hinv2
        have hfalse : (decide (a = a2) && decide (d = d2)) = false := by
          by_cases h1 : a = a2
          · have h2 : d ≠ d2 := fun h2 => hkey ⟨h1, h2⟩
            simp [h1, h2]
          · simp [h1]
        rw [hfalse, heq]
        simp only [Bool.false_eq_true, if_false]
        omega
    · intro f hf
      rcases List.mem_append.mp hf with hf1 | hf2
      · obtain ⟨g, hg, rfl⟩ := List.mem_map.mp hf1
        by_cases hgc : g = cur
        · rw [if_pos hgc]
          simp [closeTransaction]
        · rw [if_neg hgc]
          exact hwf g hg
      · have hf3 : f = correctedFact cur a d now c o hi lo vol := by
          simpa using hf2
        subst hf3
        simp [correctedFact]

/-- Every reachable pair of table states satisfies the one-open-fact
invariant on both tables with consistent current flags, by induction over
the write operations. -/
lemma reachable_invariants : ∀ (s : Store) (m : MpStore), Reachable s m →
    phInvariant s ∧ flagsConsistent s ∧ mpInvariant m := by
  intro s m h
  induction h with
  | init =>
    refine ⟨?_, ?_, ?_⟩
    · intro a d
      simp [openCount]
    · intro f hf
      simp at hf
    · intro tk vd
      simp [mpOpenCount]
  | insert s m a d c v t _ ih =>
    rw [applyInsertPrice_eq]
    exact ih
  | ingest s m tk p v vd t _ ih =>
    exact ⟨ih.1, ih.2.1, ingestPrice_preserves_mpInvariant m tk p v vd t ih.2.2⟩
  | correct s m a d t c o hi lo vol _ ih =>
    obtain ⟨hinv, hwf, hm⟩ := ih
    obtain ⟨h1, h2⟩ := correctPrice_preserves s a d t c o hi lo vol hwf hinv
    exact ⟨h1, h2, hm⟩

/-- C1: every reachable store state keeps at most one open fact
(`transaction_to` null) per (asset, trade_date) in each table, and every
write operation preserves the invariant from any state satisfying it (with
`is_current` meaning `transaction_to is null`, as the data model defines
the flag): `insert_price` commits nothing — its row leaves the NOT NULL
`valid_from` column unset, so the commit raises IntegrityError and the
table is unchanged — while `correct_price` and `ingest_price` close the
unique open fact, if any, before appending the new one. -/
theorem C1_theorem (s : Store) (m : MpStore) (s2 : Store) (m2 : MpStore)
    (a d now : Nat) (c : ℚ) (o hi lo vol : Option ℚ)
    (a2 d2 : Nat) (c2 v2 : ℚ) (t2 : Nat)
    (tk : Nat) (p3 v3 : ℚ) (vd3 t3 : Nat)
    (hreach : Reachable s m)
    (hwf2 : flagsConsistent s2) (hinv2 : phInvariant s2) (hm2 : mpInvariant m2) :
    (phInvariant s ∧ mpInvariant m) ∧
    phInvariant (applyInsertPrice s2 a2 d2 c2 v2 t2) ∧
    (phInvariant (applyCorrectPrice s2 a d now c o hi lo vol) ∧
      flagsConsistent (applyCorrectPrice s2 a d now c o hi lo vol)) ∧
    mpInvariant (ingestPrice m2 tk p3 v3 vd3 t3) := by
  obtain ⟨h1, _, h3⟩ := reachable_invariants s m hreach
  refine ⟨⟨h1, h3⟩, ?_,
    correctPrice_preserves s2 a d now c o hi lo vol hwf2 hinv2,
    ingestPrice_preserves_mpInvariant m2 tk p3 v3 vd3 t3 hm2⟩
  rw [applyInsertPrice_eq]
  exact hinv2

/-- C1 witness: the invariant statement instantiated at the empty reachable
state and a one-open-fact store hit by each writer. -/
theorem C1_witness :
    (phInvariant ([] : Store) ∧ mpInvariant ([] : MpStore)) ∧
    phInvariant (applyInsertPrice [sampleFact] 1 0 11 0 1) ∧
    (phInvariant (applyCorrectPrice [sampleFact] 1 0 1 12 none none none none) ∧
      flagsConsistent (applyCorrectPrice [sampleFact] 1 0 1 12 none none none none)) ∧
    mpInvariant (ingestPrice [] 1 5 0 0 0) :=
  C1_theorem [] [] [sampleFact] [] 1 0 1 12 none none none none 1 0 11 0 1 1 5 0 0 0
    Reachable.init
    (by
      intro f hf
      rw [List.mem_singleton] at hf
      subst hf
      simp [sampleFact])
    (by
      intro a d
      unfold openCount
      rw [countP_singleton]
      split <;> omega)
    (by
      intro tk vd
      simp [mpOpenCount])

/-! ## Lemmas about `find?` over the updated store -/

lemma find?_eq_some_of_unique {α : Type} (p : α → Bool) (v : α) :
    ∀ l : List α, (∀ x ∈ l, p x = true → x = v) → (∃ x ∈ l, p x = true) →
      l.find? p = some v := by
  intro l
  induction l with
  | nil =>
    intro _ hex
    simp at hex
  | cons x xs ih =>
    intro huniq hex
    by_cases hx : p x = true
    · rw [List.find?_cons_of_pos _ hx]
      exact congrArg some (huniq x (List.mem_cons_self x xs) hx)
    · rw [List.find?_cons_of_neg _ hx]
      apply ih
      · intro y hy hpy
        exact huniq y (List.mem_cons_of_mem _ hy) hpy
      · rcases hex with ⟨y, hy, hpy⟩
        rcases List.mem_cons.mp hy with rfl | hy2
        · exact absurd hpy hx
        · exact ⟨y, hy2, hpy⟩

/-- Behaviour of `pyOr` on an explicitly supplied zero: it is dropped. -/
lemma pyOr_some_zero (y : Option ℚ) : pyOr (some 0) y = y := by
  simp [pyOr]

/-- `pyOr` yields a zero only when its fallback was already that zero. -/
lemma pyOr_eq_some_zero (x y : Option ℚ) (h : pyOr x y = some 0) : y = some 0 := by
  cases x with
  | none => exact h
  | some v =>
    rw [show pyOr (some v) y = if v = 0 then y else some v from rfl] at h
    by_cases hv : v = 0
    · rwa [if_pos hv] at h
    · rw [if_neg hv] at h
      exact absurd (Option.some_injective _ h) hv

/-- C2: after a successful correction, `get_current_price` returns the new
fact (with the corrected close), while `get_price_as_of_transaction_time`
at any instant `t` inside the predecessor's transaction interval still
returns all of the predecessor's price values. -/
theorem C2_theorem (s : Store) (a d t now : Nat) (cur : PriceFact) (c : ℚ)
    (o hi lo vol : Option ℚ)
    (hfind : getCurrentPrice s a d = some cur)
    (huniq : ∀ g ∈ s, isCurrentFor a d g = true → g = cur)
    (hhist : ∀ g ∈ s, g.asset_id = a → g.trade_date = d → g ≠ cur →
      ∃ u, g.transaction_to = some u ∧ u ≤ cur.transaction_from)
    (ht1 : cur.transaction_from ≤ t) (ht2 : t < now) :
    ∃ s2 nf, correctPrice s a d now c o hi lo vol = .ok (s2, nf) ∧
      nf.close_price = c ∧
      getCurrentPrice s2 a d = some nf ∧
      ∃ g, getPriceAsOfTransactionTime s2 a d t = some g ∧
        g.close_price = cur.close_price ∧ g.open_price = cur.open_price ∧
        g.high_price = cur.high_price ∧ g.low_price = cur.low_price ∧
        g.volume = cur.volume := by
  have hfind2 : s.find? (isCurrentFor a d) = some cur := hfind
  have hmem : cur ∈ s := List.mem_of_find?_eq_some hfind2
  have hpred : isCurrentFor a d cur = true := List.find?_some hfind2
  simp only [isCurrentFor, Bool.and_eq_true, beq_iff_eq] at hpred
  obtain ⟨⟨hassetEq, hdateEq⟩, hisCur⟩ := hpred
  refine ⟨s.map (fun g => if g = cur then closeTransaction cur now else g)
      ++ [correctedFact cur a d now c o hi lo vol],
    correctedFact cur a d now c o hi lo vol, ?_, rfl, ?_, ?_⟩
  · unfold correctPrice
    rw [hfind]
  · unfold getCurrentPrice
    have hnoneMap : (s.map (fun g => if g = cur then closeTransaction cur now else g)).find?
        (isCurrentFor a d) = none := by
      apply List.find?_eq_none.mpr
      intro x hx
      obtain ⟨g, hg, rfl⟩ := List.mem_map.mp hx
      by_cases hgc : g = cur
      · rw [if_pos hgc]
        simp [isCurrentFor, closeTransaction]
      · rw [if_neg hgc]
        intro hcontra
        exact hgc (huniq g hg hcontra)
    rw [List.find?_append, hnoneMap, Option.none_or]
    apply List.find?_cons_of_pos
    simp [isCurrentFor, correctedFact]
  · refine ⟨closeTransaction cur now, ?_, rfl, rfl, rfl, rfl, rfl⟩
    unfold getPriceAsOfTransactionTime
    have hsomeMap : (s.map (fun g => if g = cur then closeTransaction cur now else g)).find?
        (fun f => f.asset_id == a && f.trade_date == d && txnContains t f)
          = some (closeTransaction cur now) := by
      apply find?_eq_some_of_unique
      · intro x hx hpx
        obtain ⟨g, hg, rfl⟩ := List.mem_map.mp hx
        by_cases hgc : g = cur
        · rw [if_pos hgc]
        · rw [if_neg hgc] at hpx ⊢
          simp only [Bool.and_eq_true, beq_iff_eq] at hpx
          obtain ⟨⟨hga, hgd⟩, htxn⟩ := hpx
          obtain ⟨u, hu, hule⟩ := hhist g hg hga hgd hgc
          simp only [txnContains, hu, Bool.and_eq_true, decide_eq_true_eq] at htxn
          omega
      · refine ⟨closeTransaction cur now, ?_, ?_⟩
        · exact List.mem_map.mpr ⟨cur, hmem, if_pos rfl⟩
        · simp only [closeTransaction, txnContains, Bool.and_eq_true, beq_iff_eq,
            decide_eq_true_eq]
          exact ⟨⟨hassetEq, hdateEq⟩, ht1, ht2⟩
    rw [List.find?_append, hsomeMap]
    rfl

/-- C2 witness: a one-fact store corrected at time 1, queried back at
transaction time 0. -/
theorem C2_witness :
    ∃ s2 nf, correctPrice [sampleFact] 1 0 1 12 none none none none = .ok (s2, nf) ∧
      nf.close_price = 12 ∧
      getCurrentPrice s2 1 0 = some nf ∧
      ∃ g, getPriceAsOfTransactionTime s2 1 0 0 = some g ∧
        g.close_price = sampleFact.close_price ∧
        g.open_price = sampleFact.open_price ∧
        g.high_price = sampleFact.high_price ∧
        g.low_price = sampleFact.low_price ∧
        g.volume = sampleFact.volume :=
  C2_theorem [sampleFact] 1 0 0 1 sampleFact 12 none none none none
    (by decide)
    (by decide)
    (by
      intro g hg hga hgd hne
      rw [List.mem_singleton] at hg
      exact absurd hg hne)
    (by decide)
    (by decide)

/-- C4: `correct_price` fails with the not-found error when no current fact
exists for the pair, and the session state is left exactly as it was: the
raise happens before the close or the insert, so no partial write occurs. -/
theorem C4_theorem (s : Store) (a d now : Nat) (c : ℚ) (o hi lo vol : Option ℚ)
    (hnone : getCurrentPrice s a d = none) :
    correctPrice s a d now c o hi lo vol = .error .notFound ∧
    applyCorrectPrice s a d now c o hi lo vol = s := by
  unfold applyCorrectPrice correctPrice
  rw [hnone]
  exact ⟨rfl, rfl⟩

/-- C4 witness: correcting into an empty store fails and leaves it empty. -/
theorem C4_witness :
    correctPrice [] 1 0 1 10 none none none none = .error .notFound ∧
    applyCorrectPrice [] 1 0 1 10 none none none none = [] :=
  C4_theorem [] 1 0 1 10 none none none none (by decide)

/-- C10: in `correct_price` a supplied open/high/low/volume of exactly zero
is dropped by the `x or predecessor.x` pattern, so the corrected fact
inherits the predecessor's value, and consequently no correction can change
any of these four fields to zero: the new fact carries a zero only when the
predecessor already did. -/
theorem C10_theorem (s : Store) (a d now : Nat) (cur : PriceFact) (c : ℚ)
    (o hi lo vol : Option ℚ)
    (hfind : getCurrentPrice s a d = some cur) :
    ∃ s2 nf, correctPrice s a d now c o hi lo vol = .ok (s2, nf) ∧
      (o = some 0 → nf.open_price = cur.open_price) ∧
      (hi = some 0 → nf.high_price = cur.high_price) ∧
      (lo = some 0 → nf.low_price = cur.low_price) ∧
      (vol = some 0 → nf.volume = cur.volume) ∧
      (nf.open_price = some 0 → cur.open_price = some 0) ∧
      (nf.high_price = some 0 → cur.high_price = some 0) ∧
      (nf.low_price = some 0 → cur.low_price = some 0) ∧
      (nf.volume = some 0 → cur.volume = some 0) := by
  refine ⟨s.map (fun g => if g = cur then closeTransaction cur now else g)
      ++ [correctedFact cur a d now c o hi lo vol],
    correctedFact cur a d now c o hi lo vol, ?_, ?_, ?_, ?_, ?_, ?_, ?_, ?_, ?_⟩
  · unfold correctPrice
    rw [hfind]
  · intro h0
    rw [h0]
    exact pyOr_some_zero cur.open_price
  · intro h0
    rw [h0]
    exact pyOr_some_zero cur.high_price
  · intro h0
    rw [h0]
    exact pyOr_some_zero cur.low_price
  · intro h0
    rw [h0]
    exact pyOr_some_zero cur.volume
  · exact pyOr_eq_some_zero o cur.open_price
  · exact pyOr_eq_some_zero hi cur.high_price
  · exact pyOr_eq_some_zero lo cur.low_price
  · exact pyOr_eq_some_zero vol cur.volume

/-- C10 witness: correcting with all four optional fields supplied as zero
inherits the predecessor's open/high/low/volume. -/
theorem C10_witness :
    ∃ s2 nf, correctPrice [sampleFact] 1 0 1 12
        (some 0) (some 0) (some 0) (some 0) = .ok (s2, nf) ∧
      (some (0 : ℚ) = some 0 → nf.open_price = sampleFact.open_price) ∧
      (some (0 : ℚ) = some 0 → nf.high_price = sampleFact.high_price) ∧
      (some (0 : ℚ) = some 0 → nf.low_price = sampleFact.low_price) ∧
      (some (0 : ℚ) = some 0 → nf.volume = sampleFact.volume) ∧
      (nf.open_price = some 0 → sampleFact.open_price = some 0) ∧
      (nf.high_price = some 0 → sampleFact.high_price = some 0) ∧
      (nf.low_price = some 0 → sampleFact.low_price = some 0) ∧
      (nf.volume = some 0 → sampleFact.volume = some 0) :=
  C10_theorem [sampleFact] 1 0 1 sampleFact 12
    (some 0) (some 0) (some 0) (some 0) (by decide)

/-! ## Risk analytics (`app/services/analytics.py`)

Return series are embedded as lists of rationals.  The pandas statistics
used by `calculate_beta` are `Series.var`/`Series.cov` with their default
`ddof=1`: sums of demeaned products divided by `n - 1`. -/

def mean (l : List ℚ) : ℚ := l.sum / l.length

/-- `Series.var()` (pandas default `ddof=1`). -/
def sampleVar (l : List ℚ) : ℚ :=
  (l.map (fun x => (x - mean l) ^ 2)).sum / ((l.length : ℚ) - 1)

/-- `Series.cov(other)` on index-aligned series (pandas default `ddof=1`). -/
def sampleCov (xs ys : List ℚ) : ℚ :=
  ((xs.zip ys).map (fun p => (p.1 - mean xs) * (p.2 - mean ys))).sum
    / ((xs.length : ℚ) - 1)

/-- Population variance (division by `n`), for the convention-independent
statement of the beta ratio. -/
def popVar (l : List ℚ) : ℚ :=
  (l.map (fun x => (x - mean l) ^ 2)).sum / (l.length : ℚ)

/-- Population covariance (division by `n`). -/
def popCov (xs ys : List ℚ) : ℚ :=
  ((xs.zip ys).map (fun p => (p.1 - mean xs) * (p.2 - mean ys))).sum
    / (xs.length : ℚ)

/-- `RiskCalculationError` codes raised by the two statistics helpers. -/
inductive RiskErr where
  | insufficientData
  | zeroVariance
deriving DecidableEq, Repr

/-- `calculate_beta` (`analytics.py`): fewer than 2 points in either series
raises INSUFFICIENT_DATA; zero benchmark variance raises ZERO_VARIANCE;
otherwise beta is the sample covariance over the sample variance.  (The
NaN guard of the source is unreachable in exact arithmetic.) -/
def calculate_beta (asset_returns benchmark_returns : List ℚ) : Except RiskErr ℚ :=
  if asset_returns.length < 2 ∨ benchmark_returns.length < 2 then
    .error .insufficientData
  else if sampleVar benchmark_returns = 0 then
    .error .zeroVariance
  else
    .ok (sampleCov asset_returns benchmark_returns / sampleVar benchmark_returns)

def insertAsc (x : ℚ) : List ℚ → List ℚ
  | [] => [x]
  | y :: ys => if x ≤ y then x :: y :: ys else y :: insertAsc x ys

def sortAsc : List ℚ → List ℚ
  | [] => []
  | x :: xs => insertAsc x (sortAsc xs)

/-- `numpy.percentile(a, q)` with the default linear interpolation: sort the
values, take the virtual index `q/100 * (n - 1)` and interpolate linearly
between its two neighbouring order statistics.  (When the virtual index is
integral the interpolation weight is zero and the upper neighbour is never
read, so its out-of-range fallback is irrelevant.) -/
def percentileLinear (l : List ℚ) (q : ℚ) : ℚ :=
  let s := sortAsc l
  let n := l.length
  if n = 0 then 0
  else
    let pos : ℚ := q / 100 * ((n : ℚ) - 1)
    let i : Nat := (Int.floor pos).toNat
    let lo := s.getD i 0
    let hi := s.getD (i + 1) lo
    lo + (pos - (i : ℚ)) * (hi - lo)

/-- `calculate_var_95` (`analytics.py`): requires at least 5 observations,
then returns `np.percentile(returns, 5) * 100` — the signed 5th percentile
scaled to a percentage, with no negation. -/
def calculate_var_95 (returns : List ℚ) : Except RiskErr ℚ :=
  if returns.length < 5 then .error .insufficientData
  else .ok (percentileLinear returns 5 * 100)

/-- `RiskMetrics.value_at_risk` (`actuarial/cm2_portfolio.py`) for the
historical method: `-(np.percentile(returns, (1 - confidence_level) * 100))`.
The parametric branch uses the normal quantile function and is outside the
rational embedding; only the historical branch is modelled. -/
def cm2_value_at_risk (returns : List ℚ) (confidence_level : ℚ) : ℚ :=
  -(percentileLinear returns ((1 - confidence_level) * 100))

/-- C3, counterexample: on the 5-point series [1,2,3,4,5] the Risk
Calculator's `calculate_var_95` returns `+120` (the raw 5th percentile 6/5
times 100), which is not the negative of the 5th percentile demanded by
the claim. -/
theorem C3_counterexample :
    calculate_var_95 [1, 2, 3, 4, 5] = .ok 120 ∧
    percentileLinear [1, 2, 3, 4, 5] 5 = 6 / 5 ∧
    (120 : ℚ) ≠ -(6 / 5) := by
  have hp : percentileLinear [1, 2, 3, 4, 5] 5 = 6 / 5 := by
    norm_num [percentileLinear, sortAsc, insertAsc]
  refine ⟨?_, hp, by norm_num⟩
  unfold calculate_var_95
  rw [if_neg (by norm_num), hp]
  norm_num

/-- C3 (amended): for at least 5 points `calculate_var_95` succeeds and
equals the signed empirical 5th percentile times 100 (no negation), and it
is the separate `RiskMetrics.value_at_risk` of the actuarial module that
equals the negative of that percentile. -/
theorem C3_amended_theorem (returns : List ℚ) (hlen : 5 ≤ returns.length) :
    calculate_var_95 returns = .ok (percentileLinear returns 5 * 100) ∧
    cm2_value_at_risk returns (95 / 100) = -(percentileLinear returns 5) := by
  constructor
  · unfold calculate_var_95
    rw [if_neg (by omega)]
  · unfold cm2_value_at_risk
    have harg : ((1 : ℚ) - 95 / 100) * 100 = 5 := by norm_num
    rw [harg]

/-- C3 witness: the amended statement instantiated on [1,2,3,4,5]. -/
theorem C3_amended_witness :
    calculate_var_95 [1, 2, 3, 4, 5] = .ok (percentileLinear [1, 2, 3, 4, 5] 5 * 100) ∧
    cm2_value_at_risk [1, 2, 3, 4, 5] (95 / 100)
      = -(percentileLinear [1, 2, 3, 4, 5] 5) :=
  C3_amended_theorem [1, 2, 3, 4, 5] (by decide)

/-- C6: for aligned series `calculate_beta` raises INSUFFICIENT_DATA below
2 paired points, ZERO_VARIANCE at zero benchmark variance, and otherwise
returns Cov/Var — equal to the ratio in either the sample (`ddof=1`) or
the population convention. -/
theorem C6_theorem (xs ys : List ℚ) (hlen : xs.length = ys.length) :
    calculate_beta xs ys =
      if xs.length < 2 then .error .insufficientData
      else if sampleVar ys = 0 then .error .zeroVariance
      else .ok (popCov xs ys / popVar ys) := by
  unfold calculate_beta
  by_cases h2 : xs.length < 2
  · rw [if_pos (Or.inl h2), if_pos h2]
  · rw [if_neg (by omega), if_neg h2]
    by_cases hv : sampleVar ys = 0
    · rw [if_pos hv, if_pos hv]
    · rw [if_neg hv, if_neg hv]
      congr 1
      have hn2 : 2 ≤ xs.length := Nat.not_lt.mp h2
      have hnq : (2 : ℚ) ≤ (xs.length : ℚ) := by exact_mod_cast hn2
      have hc1 : ((xs.length : ℚ) - 1) ≠ 0 := by linarith
      have hc2 : ((xs.length : ℚ)) ≠ 0 := by linarith
      have hM : (ys.map (fun y => (y - mean ys) ^ 2)).sum ≠ 0 := by
        intro h0
        apply hv
        show (ys.map (fun y => (y - mean ys) ^ 2)).sum / ((ys.length : ℚ) - 1) = 0
        rw [h0, zero_div]
      show (((xs.zip ys).map (fun p => (p.1 - mean xs) * (p.2 - mean ys))).sum
          / ((xs.length : ℚ) - 1))
          / ((ys.map (fun y => (y - mean ys) ^ 2)).sum / ((ys.length : ℚ) - 1))
        = (((xs.zip ys).map (fun p => (p.1 - mean xs) * (p.2 - mean ys))).sum
          / (xs.length : ℚ))
          / ((ys.map (fun y => (y - mean ys) ^ 2)).sum / (ys.length : ℚ))
      rw [← hlen]
      field_simp

/-- C6 witness: the beta characterization instantiated on two 2-point
series with non-zero benchmark variance. -/
theorem C6_witness :
    calculate_beta [0, 1] [0, 2] =
      if ([0, 1] : List ℚ).length < 2 then .error .insufficientData
      else if sampleVar [0, 2] = 0 then .error .zeroVariance
      else .ok (popCov [0, 1] [0, 2] / popVar [0, 2]) :=
  C6_theorem [0, 1] [0, 2] rfl

/-! ## The return-series builder (`prepare_returns_data` and
`convert_prices_to_dataframe` in `analytics.py`)

A pandas series is embedded as a list of (date index, cell) pairs, a cell
being `none` for NaN.  `Series.ffill()` fills NaN cells at existing index
rows with the last non-NaN value seen; it inserts no rows. -/

def ffillAux : Option ℚ → List (Nat × Option ℚ) → List (Nat × Option ℚ)
  | _, [] => []
  | last, (d, cell) :: rest =>
    match cell with
    | some x => (d, some x) :: ffillAux (some x) rest
    | none => (d, last) :: ffillAux last rest

/-- `Series.ffill()` as called on the close series in
`prepare_returns_data`. -/
def ffill (l : List (Nat × Option ℚ)) : List (Nat × Option ℚ) :=
  ffillAux none l

def insertByDate (r : Nat × Option ℚ) : List (Nat × Option ℚ) → List (Nat × Option ℚ)
  | [] => [r]
  | y :: ys => if r.1 ≤ y.1 then r :: y :: ys else y :: insertByDate r ys

def sortByDate : List (Nat × Option ℚ) → List (Nat × Option ℚ)
  | [] => []
  | x :: xs => insertByDate x (sortByDate xs)

/-- `convert_prices_to_dataframe`: one row per price record, indexed by
trade date and sorted; `close_price` is a non-nullable column, so every
cell is a present value, never NaN. -/
def convert_prices_to_dataframe (prices : List PriceFact) : List (Nat × Option ℚ) :=
  sortByDate (prices.map (fun p => (p.trade_date, some p.close_price)))

/-- The forward-fill step as the spec describes it: re-index the series on
the full daily grid from the first to the last date and give every day the
last known close at or before it (LOCF). -/
def specDailyFill (l : List (Nat × ℚ)) : List ℚ :=
  match l with
  | [] => []
  | (d0, v0) :: _ =>
    let lastDate := l.foldl (fun acc p => max acc p.1) 0
    (List.range (lastDate + 1 - d0)).map
      (fun k => l.foldl (fun acc p => if p.1 ≤ d0 + k then p.2 else acc) v0)

lemma mem_insertByDate (r x : Nat × Option ℚ) :
    ∀ l, x ∈ insertByDate r l → x = r ∨ x ∈ l := by
  intro l
  induction l with
  | nil =>
    intro hx
    simp [insertByDate] at hx
    exact Or.inl hx
  | cons y ys ih =>
    intro hx
    unfold insertByDate at hx
    by_cases hcmp : r.1 ≤ y.1
    · rw [if_pos hcmp] at hx
      rcases List.mem_cons.mp hx with rfl | hx2
      · exact Or.inl rfl
      · exact Or.inr hx2
    · rw [if_neg hcmp] at hx
      rcases List.mem_cons.mp hx with rfl | hx2
      · exact Or.inr (List.mem_cons_self _ _)
      · rcases ih hx2 with h | h
        · exact Or.inl h
        · exact Or.inr (List.mem_cons_of_mem _ h)

lemma mem_sortByDate (x : Nat × Option ℚ) :
    ∀ l, x ∈ sortByDate l → x ∈ l := by
  intro l
  induction l with
  | nil => intro hx; simp [sortByDate] at hx
  | cons y ys ih =>
    intro hx
    unfold sortByDate at hx
    rcases mem_insertByDate y x (sortByDate ys) hx with rfl | hx2
    · exact List.mem_cons_self _ _
    · exact List.mem_cons_of_mem _ (ih hx2)

lemma ffillAux_of_allSome (last : Option ℚ) :
    ∀ l : List (Nat × Option ℚ), (∀ p ∈ l, p.2.isSome = true) → ffillAux last l = l := by
  intro l
  induction l generalizing last with
  | nil => intro _; rfl
  | cons y ys ih =>
    intro hall
    obtain ⟨d, cell⟩ := y
    cases cell with
    | none =>
      have := hall (d, none) (List.mem_cons_self _ _)
      simp at this
    | some x =>
      show (d, some x) :: ffillAux (some x) ys = (d, some x) :: ys
      rw [ih (some x) (fun p hp => hall p (List.mem_cons_of_mem _ hp))]

/-- C5: the code's forward-fill never builds a daily grid.  The close
series produced by `convert_prices_to_dataframe` has no NaN cell (the close
column is non-nullable), so `Series.ffill()` is the identity on it and the
missing dates stay absent; on the claim's own example the code-side filled
series is still the two-row series, not the four-value daily LOCF series
`[10, 10, 10, 12]` that the spec's forward-fill step produces. -/
theorem C5_theorem :
    (∀ prices : List PriceFact,
      ffill (convert_prices_to_dataframe prices) = convert_prices_to_dataframe prices) ∧
    ffill [(0, some 10), (3, some 12)] = [(0, some 10), (3, some 12)] ∧
    specDailyFill [(0, 10), (3, 12)] = [10, 10, 10, 12] ∧
    (ffill [(0, some 10), (3, some 12)]).length ≠
      (specDailyFill [(0, 10), (3, 12)]).length := by
  refine ⟨?_, by decide, by decide, by decide⟩
  intro prices
  apply ffillAux_of_allSome
  intro p hp
  have hmem := mem_sortByDate p _ hp
  obtain ⟨q, _, rfl⟩ := List.mem_map.mp hmem
  rfl

/-! ## The corrections audit trail

`GET /audit/corrections/{asset_id}` (`api/v1/endpoints/bitemporal.py`)
calls `BitemporalService.get_corrections_audit` and renders each
transition as a `CorrectionAudit` row. -/

/-- Transaction-time order on facts. -/
def txnLE (f g : PriceFact) : Prop :=
  f.transaction_from ≤ g.transaction_from

instance : DecidableRel txnLE := fun f g => Nat.decLe f.transaction_from g.transaction_from

instance : IsTrans PriceFact txnLE := ⟨fun _ _ _ h1 h2 => le_trans h1 h2⟩

instance : IsTotal PriceFact txnLE := ⟨fun f g => Nat.le_total f.transaction_from g.transaction_from⟩

/-- The `CorrectionAudit` response model of the audit endpoint. -/
structure CorrectionAudit where
  trade_date : Nat
  corrected_at : Nat
  old_close_price : ℚ
  new_close_price : ℚ
  price_change : ℚ
  price_change_pct : Option ℚ
deriving DecidableEq, Repr

/-- One audit row for the transition from fact `f` to its successor `g`. -/
def mkAuditEntry (f g : PriceFact) : CorrectionAudit :=
  { trade_date := g.trade_date
    corrected_at := g.transaction_from
    old_close_price := f.close_price
    new_close_price := g.close_price
    price_change := g.close_price - f.close_price
    price_change_pct :=
      if f.close_price = 0 then none
      else some ((g.close_price - f.close_price) / f.close_price * 100) }

/-- Audit rows for every consecutive pair of a transaction-time-ordered
fact list. -/
def transitions : List PriceFact → List CorrectionAudit
  | [] => []
  | [_] => []
  | f :: g :: rest => mkAuditEntry f g :: transitions (g :: rest)

/-- Modelled from the spec: `BitemporalService.get_corrections_audit` is
called by the audit endpoint (`api/v1/endpoints/bitemporal.py`, line 173)
but the method itself is absent from `bitemporal_service.py` in the source
tree.  Spec section 4.3 specifies it: return all facts for the asset in
transaction-time order, exposing old/new close and percentage change per
transition — purely derived from history, read-only. -/
def get_corrections_audit (s : Store) (a : Nat) : List CorrectionAudit :=
  transitions (List.insertionSort txnLE (s.filter (fun f => f.asset_id == a)))

/-- The chain relation of the audit-trail claim: each entry's old close is
the previous entry's new close, in non-decreasing transaction-time order. -/
def auditChained (e1 e2 : CorrectionAudit) : Prop :=
  e2.old_close_price = e1.new_close_price ∧ e1.corrected_at ≤ e2.corrected_at

lemma transitions_chain : ∀ l : List PriceFact, List.Chain' txnLE l →
    List.Chain' auditChained (transitions l)
  | [] => fun _ => by simp [transitions]
  | [_] => fun _ => by simp [transitions]
  | f :: g :: rest => fun hsort => by
    rcases List.chain'_cons.mp hsort with ⟨hfg, htail⟩
    have ihtail := transitions_chain (g :: rest) htail
    cases rest with
    | nil => simp [transitions]
    | cons h rest2 =>
      rw [show transitions (f :: g :: h :: rest2)
          = mkAuditEntry f g :: mkAuditEntry g h :: transitions (h :: rest2) from rfl]
      rw [show transitions (g :: h :: rest2)
          = mkAuditEntry g h :: transitions (h :: rest2) from rfl] at ihtail
      apply List.chain'_cons.mpr
      refine ⟨⟨rfl, ?_⟩, ihtail⟩
      rcases List.chain'_cons.mp htail with ⟨hgh, _⟩
      exact hgh

/-- C7: the audit trail contains exactly the asset's facts (a permutation
of the filtered store), lists them in non-decreasing transaction-time
order, and consecutive audit entries are chained: the old close of entry
i+1 is the new close of entry i, at non-decreasing correction times. -/
theorem C7_theorem (s : Store) (a : Nat) :
    (List.insertionSort txnLE (s.filter (fun f => f.asset_id == a))).Perm
      (s.filter (fun f => f.asset_id == a)) ∧
    List.Chain' txnLE (List.insertionSort txnLE (s.filter (fun f => f.asset_id == a))) ∧
    List.Chain' auditChained (get_corrections_audit s a) :=
  ⟨List.perm_insertionSort txnLE _,
   (List.sorted_insertionSort txnLE _).chain',
   transitions_chain _ ((List.sorted_insertionSort txnLE _).chain')⟩

/-! ## The risk-calculation task (`calculate_asset_risk_metrics` in
`app/tasks.py`) and the risk_metrics table (`app/models/risk_metrics.py`)

The task runs the `RiskEngine` pipeline and persists one
`RiskMetricsHistory` row.  The pipeline's outcome is the task's input
here: every failure path inside the engine raises a typed
`RiskCalculationError`; any other exception (database, import, ...) falls
through to the task's catch-all, which re-schedules via `self.retry` —
raising out of the current invocation without touching the table. -/

inductive CalcStatus where
  | completed
  | failed
deriving DecidableEq, Repr

/-- One row of the risk_metrics table, restricted to the columns the task
writes. The typed failure reason is kept as the `RiskErr` code. -/
structure RiskMetricsHistory where
  asset_id : Nat
  benchmark_id : Nat
  beta : ℚ
  var_95 : ℚ
  observation_count : Nat
  lookback_days : Nat
  calculation_status : CalcStatus
  error_message : Option RiskErr
deriving DecidableEq, Repr

/-- How one invocation of the pipeline inside the task ends. -/
inductive PipelineOutcome where
  | ok (beta var_95 : ℚ) (observation_count : Nat)
  | calcError (code : RiskErr)
  | genericError
deriving DecidableEq, Repr

/-- How the task invocation itself ends. -/
inductive TaskEnd where
  | success
  | failedRecorded
  | retryRaised
deriving DecidableEq, Repr

/-- `calculate_asset_risk_metrics`: on pipeline success commit a
`completed` row with the metrics; on a `RiskCalculationError` commit a
`failed` row with zeroed metrics and the error; on any other exception
call `self.retry`, which raises — ending the invocation with nothing
persisted. -/
def calculate_asset_risk_metrics (snaps : List RiskMetricsHistory)
    (asset_id benchmark_id lookback_days : Nat) (outcome : PipelineOutcome) :
    List RiskMetricsHistory × TaskEnd :=
  match outcome with
  | .ok beta v obs =>
    (snaps ++ [{ asset_id := asset_id, benchmark_id := benchmark_id, beta := beta,
                 var_95 := v, observation_count := obs, lookback_days := lookback_days,
                 calculation_status := .completed, error_message := none }],
     .success)
  | .calcError code =>
    (snaps ++ [{ asset_id := asset_id, benchmark_id := benchmark_id, beta := 0,
                 var_95 := 0, observation_count := 0, lookback_days := lookback_days,
                 calculation_status := .failed, error_message := some code }],
     .failedRecorded)
  | .genericError => (snaps, .retryRaised)

/-- C8, counterexample: an invocation whose pipeline aborts with a
non-`RiskCalculationError` exception ends through the catch-all retry with
no snapshot persisted — the table is unchanged, falsifying that no
invocation terminates without a persisted snapshot. -/
theorem C8_counterexample :
    calculate_asset_risk_metrics [] 1 2 365 .genericError = ([], .retryRaised) := by
  rfl

/-- C8 (amended): every invocation whose pipeline either completes or
fails with a typed `RiskCalculationError` persists exactly one snapshot
row — `completed` carrying the computed metrics, or `failed` carrying the
typed reason; only an invocation aborted by some other exception ends in
a retry with nothing persisted. -/
theorem C8_amended_theorem (snaps : List RiskMetricsHistory)
    (asset_id benchmark_id lookback_days : Nat) (outcome : PipelineOutcome)
    (hout : outcome ≠ .genericError) :
    (calculate_asset_risk_metrics snaps asset_id benchmark_id lookback_days outcome).1.length
      = snaps.length + 1 ∧
    (∀ beta v obs, outcome = .ok beta v obs →
      calculate_asset_risk_metrics snaps asset_id benchmark_id lookback_days outcome
        = (snaps ++ [{ asset_id := asset_id, benchmark_id := benchmark_id, beta := beta,
                       var_95 := v, observation_count := obs,
                       lookback_days := lookback_days,
                       calculation_status := .completed, error_message := none }],
           .success)) ∧
    (∀ code, outcome = .calcError code →
      calculate_asset_risk_metrics snaps asset_id benchmark_id lookback_days outcome
        = (snaps ++ [{ asset_id := asset_id, benchmark_id := benchmark_id, beta := 0,
                       var_95 := 0, observation_count := 0,
                       lookback_days := lookback_days,
                       calculation_status := .failed, error_message := some code }],
           .failedRecorded)) := by
  cases outcome with
  | ok beta v obs =>
    refine ⟨by simp [calculate_asset_risk_metrics], ?_, ?_⟩
    · intro b2 v2 o2 heq
      cases heq
      rfl
    · intro code heq
      cases heq
  | calcError code =>
    refine ⟨by simp [calculate_asset_risk_metrics], ?_, ?_⟩
    · intro b2 v2 o2 heq
      cases heq
    · intro code2 heq
      cases heq
      rfl
  | genericError => exact absurd rfl hout

/-- C8 witness: the amended statement instantiated at a successful pipeline
run appending the one completed snapshot to an empty table. -/
theorem C8_amended_witness :
    (calculate_asset_risk_metrics [] 1 2 365 (.ok 1 (-3) 12)).1.length
      = ([] : List RiskMetricsHistory).length + 1 ∧
    (∀ beta v obs, PipelineOutcome.ok 1 (-3) 12 = .ok beta v obs →
      calculate_asset_risk_metrics [] 1 2 365 (.ok 1 (-3) 12)
        = ([] ++ [{ asset_id := 1, benchmark_id := 2, beta := beta,
                    var_95 := v, observation_count := obs, lookback_days := 365,
                    calculation_status := .completed, error_message := none }],
           .success)) ∧
    (∀ code, PipelineOutcome.ok 1 (-3) 12 = .calcError code →
      calculate_asset_risk_metrics [] 1 2 365 (.ok 1 (-3) 12)
        = ([] ++ [{ asset_id := 1, benchmark_id := 2, beta := 0,
                    var_95 := 0, observation_count := 0, lookback_days := 365,
                    calculation_status := .failed, error_message := some code }],
           .failedRecorded)) :=
  C8_amended_theorem [] 1 2 365 (.ok 1 (-3) 12) (by intro h; cases h)

/-! ## The bulk/set-based risk path (`app/services/timescale_risk.py`)

`get_risk_metrics_hybrid` calls the database functions `calculate_beta_sql`
and `calculate_var_sql`; their SQL bodies live in the migration
`app/db/migrations/weekly_returns_view.sql`, which is absent from the
source tree (only `scripts/apply_weekly_returns_migration.py` applies it
and `timescale_risk.py` calls it).  Following the spec, the bulk path
computes the same statistics directly over the store with set-based
aggregates; it is modelled here with the standard one-pass SQL aggregate
formulas (`covar_samp`, `var_samp`, `percentile_cont`). -/

/-- Modelled from the spec: the database-side beta of `calculate_beta_sql`
(absent SQL), as `covar_samp(asset, bench) / var_samp(bench)` over the
joined weekly observations, written with the one-pass aggregate sums
`(Σxy - ΣxΣy/n)/(n-1)` and `(Σy² - (Σy)²/n)/(n-1)`. -/
def calculate_beta_sql (xs ys : List ℚ) : ℚ :=
  ((((xs.zip ys).map (fun p => p.1 * p.2)).sum - xs.sum * ys.sum / (xs.length : ℚ))
      / ((xs.length : ℚ) - 1))
    / (((ys.map (fun y => y * y)).sum - ys.sum * ys.sum / (ys.length : ℚ))
      / ((ys.length : ℚ) - 1))

/-- Modelled from the spec: the continuous percentile
`percentile_cont(p) within group (order by r)` of PostgreSQL, used by the
database-side VaR: at row number `rn = 1 + p*(n-1)` over the sorted values,
interpolating between the rows at `floor rn` and `ceil rn`. -/
def percentile_cont (p : ℚ) (l : List ℚ) : ℚ :=
  let s := sortAsc l
  let n := l.length
  if n = 0 then 0
  else
    let rn : ℚ := 1 + p * ((n : ℚ) - 1)
    let frn : ℤ := Int.floor rn
    let crn : ℤ := Int.ceil rn
    if crn = frn then s.getD (frn - 1).toNat 0
    else ((crn : ℚ) - rn) * s.getD (frn - 1).toNat 0
      + (rn - (frn : ℚ)) * s.getD (crn - 1).toNat 0

/-- Modelled from the spec: the database-side VaR of `calculate_var_sql`
(absent SQL): the continuous 5th percentile of the weekly returns, scaled
to a percentage like the Python path's output. -/
def calculate_var_sql (returns : List ℚ) : ℚ :=
  100 * percentile_cont (5 / 100) returns

lemma sum_zip_demeaned (a b : ℚ) :
    ∀ (xs ys : List ℚ), xs.length = ys.length →
      ((xs.zip ys).map (fun p => (p.1 - a) * (p.2 - b))).sum
        = ((xs.zip ys).map (fun p => p.1 * p.2)).sum
          - b * xs.sum - a * ys.sum + (xs.length : ℚ) * (a * b)
  | [], [] => by simp
  | [], y :: ys => by intro h; simp at h
  | x :: xs, [] => by intro h; simp at h
  | x :: xs, y :: ys => by
    intro h
    simp only [List.length_cons] at h
    have ih := sum_zip_demeaned a b xs ys (Nat.succ_injective h)
    simp only [List.zip_cons_cons, List.map_cons, List.sum_cons, List.length_cons]
    rw [ih]
    push_cast
    ring

lemma sum_sq_demeaned (b : ℚ) : ∀ ys : List ℚ,
    (ys.map (fun y => (y - b) ^ 2)).sum
      = (ys.map (fun y => y * y)).sum - 2 * b * ys.sum + (ys.length : ℚ) * (b * b)
  | [] => by simp
  | y :: ys => by
    simp only [List.map_cons, List.sum_cons, List.length_cons]
    rw [sum_sq_demeaned b ys]
    push_cast
    ring

lemma sampleCov_onepass (xs ys : List ℚ) (hlen : xs.length = ys.length)
    (hn : xs.length ≠ 0) :
    sampleCov xs ys
      = (((xs.zip ys).map (fun p => p.1 * p.2)).sum
          - xs.sum * ys.sum / (xs.length : ℚ)) / ((xs.length : ℚ) - 1) := by
  unfold sampleCov
  congr 1
  rw [sum_zip_demeaned (mean xs) (mean ys) xs ys hlen]
  unfold mean
  have hq : (xs.length : ℚ) ≠ 0 := Nat.cast_ne_zero.mpr hn
  rw [← hlen]
  field_simp
  ring

lemma sampleVar_onepass (ys : List ℚ) (hn : ys.length ≠ 0) :
    sampleVar ys
      = ((ys.map (fun y => y * y)).sum - ys.sum * ys.sum / (ys.length : ℚ))
        / ((ys.length : ℚ) - 1) := by
  unfold sampleVar
  congr 1
  rw [sum_sq_demeaned (mean ys) ys]
  unfold mean
  have hq : (ys.length : ℚ) ≠ 0 := Nat.cast_ne_zero.mpr hn
  field_simp
  ring

lemma insertAsc_length (x : ℚ) : ∀ l : List ℚ, (insertAsc x l).length = l.length + 1
  | [] => rfl
  | y :: ys => by
    unfold insertAsc
    by_cases h : x ≤ y
    · rw [if_pos h]
      rfl
    · rw [if_neg h]
      simp only [List.length_cons, insertAsc_length x ys]

lemma sortAsc_length : ∀ l : List ℚ, (sortAsc l).length = l.length
  | [] => rfl
  | x :: xs => by
    unfold sortAsc
    rw [insertAsc_length, sortAsc_length xs]
    rfl

/-- The PostgreSQL continuous percentile at fraction 5/100 agrees exactly
with numpy's linear-interpolation percentile at q = 5. -/
lemma percentile_cont_eq_linear (l : List ℚ) (hl : l.length ≠ 0) :
    percentile_cont (5 / 100) l = percentileLinear l 5 := by
  simp only [percentile_cont, percentileLinear]
  rw [if_neg hl, if_neg hl]
  have h1n : 1 ≤ l.length := Nat.one_le_iff_ne_zero.mpr hl
  have h1q : (1 : ℚ) ≤ (l.length : ℚ) := by exact_mod_cast h1n
  set s := sortAsc l with hs
  set x : ℚ := 5 / 100 * ((l.length : ℚ) - 1) with hxdef
  have hx0 : 0 ≤ x := by
    rw [hxdef]
    apply mul_nonneg (by norm_num)
    linarith
  have hfl0 : 0 ≤ Int.floor x := Int.floor_nonneg.mpr hx0
  have hcastI : ((Int.floor x).toNat : ℚ) = ((Int.floor x : ℤ) : ℚ) := by
    exact_mod_cast congrArg (fun z : ℤ => (z : ℚ)) (Int.toNat_of_nonneg hfl0)
  have hfrn : Int.floor (1 + x) = Int.floor x + 1 := by
    rw [add_comm]
    exact Int.floor_add_one x
  have hcrn : Int.ceil (1 + x) = Int.ceil x + 1 := by
    rw [add_comm]
    exact Int.ceil_add_one x
  by_cases hint : Int.ceil x = Int.floor x
  · have hxi : (Int.floor x : ℚ) = x := by
      refine le_antisymm (Int.floor_le x) ?_
      have h2 := Int.le_ceil x
      rwa [hint] at h2
    rw [if_pos (by rw [hcrn, hfrn, hint])]
    rw [hfrn]
    rw [show Int.floor x + 1 - 1 = Int.floor x from by omega]
    have hw : x - ((Int.floor x).toNat : ℚ) = 0 := by
      rw [hcastI, hxi]
      ring
    rw [hw, zero_mul, add_zero]
  · have hceilf : Int.ceil x = Int.floor x + 1 := by
      have hle1 := Int.floor_le_ceil x
      have hle2 := Int.ceil_le_floor_add_one x
      omega
    rw [if_neg (by rw [hcrn, hfrn, hceilf]; omega)]
    rw [hfrn, hcrn, hceilf]
    have hxlt : x < (l.length : ℚ) - 1 := by
      have hle : x ≤ (l.length : ℚ) - 1 := by
        rw [hxdef]
        nlinarith [sub_nonneg.mpr h1q]
      rcases lt_or_eq_of_le hle with h | h
      · exact h
      · exfalso
        apply hint
        have hxint : x = (((l.length : ℤ) - 1 : ℤ) : ℚ) := by
          rw [h]
          push_cast
          ring
        rw [hxint, Int.ceil_intCast, Int.floor_intCast]
    have hslen : s.length = l.length := sortAsc_length l
    have hiub : Int.floor x < (l.length : ℤ) - 1 := by
      have hfle := Int.floor_le x
      have hq : ((Int.floor x : ℤ) : ℚ) < (((l.length : ℤ) - 1 : ℤ) : ℚ) := by
        push_cast
        linarith
      exact_mod_cast hq
    have hitn : ((Int.floor x).toNat : ℤ) = Int.floor x := Int.toNat_of_nonneg hfl0
    have hidx1 : (Int.floor x + 1 - 1).toNat = (Int.floor x).toNat := by omega
    have hidx2 : (Int.floor x + 1 + 1 - 1).toNat = (Int.floor x).toNat + 1 := by omega
    rw [hidx1, hidx2]
    have hi1 : (Int.floor x).toNat + 1 < s.length := by
      rw [hslen]
      omega
    have hi0 : (Int.floor x).toNat < s.length := by omega
    have e3 : s.getD ((Int.floor x).toNat + 1) (s.getD ((Int.floor x).toNat) 0)
        = s[(Int.floor x).toNat + 1] := List.getD_eq_getElem s _ hi1
    have e2 : s.getD ((Int.floor x).toNat + 1) 0
        = s[(Int.floor x).toNat + 1] := List.getD_eq_getElem s 0 hi1
    have e1 : s.getD ((Int.floor x).toNat) 0
        = s[(Int.floor x).toNat] := List.getD_eq_getElem s 0 hi0
    rw [e3, e2, e1, hcastI]
    push_cast
    ring

/-- C9: on identical aligned inputs the modelled set-based path reproduces
the per-record Python path exactly over the rationals — the bulk beta is
the value `calculate_beta` returns and the bulk VaR is the value
`calculate_var_95` returns, so the two paths agree within any positive
tolerance, in particular 1e-6 relative. -/
theorem C9_theorem (xs ys rs : List ℚ) (hlen : xs.length = ys.length)
    (h2 : 2 ≤ xs.length) (hv : sampleVar ys ≠ 0) (hr : 5 ≤ rs.length) :
    calculate_beta xs ys = .ok (calculate_beta_sql xs ys) ∧
    calculate_var_95 rs = .ok (calculate_var_sql rs) := by
  constructor
  · unfold calculate_beta
    rw [if_neg (by omega), if_neg hv]
    congr 1
    rw [sampleCov_onepass xs ys hlen (by omega), sampleVar_onepass ys (by omega)]
    unfold calculate_beta_sql
    rw [← hlen]
  · unfold calculate_var_95
    rw [if_neg (by omega)]
    unfold calculate_var_sql
    rw [percentile_cont_eq_linear rs (by omega)]
    congr 1
    ring

/-- C9 witness: the path agreement instantiated on concrete aligned series. -/
theorem C9_witness :
    calculate_beta [0, 1] [0, 2] = .ok (calculate_beta_sql [0, 1] [0, 2]) ∧
    calculate_var_95 [1, 2, 3, 4, 5] = .ok (calculate_var_sql [1, 2, 3, 4, 5]) :=
  C9_theorem [0, 1] [0, 2] [1, 2, 3, 4, 5] rfl (by norm_num)
    (by norm_num [sampleVar, mean]) (by norm_num)

end LuseQuant
